import Mathlib

/-!
Shallow embedding of the streaming find-and-replace iterator adapter from
`src/src/lib.rs` (crate `rust-iter-replace`), together with proofs about it.

The Rust code adapts an upstream iterator: tokens are consumed one at a time,
partial-match candidate start positions are tracked per pattern in a
`BTreeSet<usize>` (modelled as a strictly ascending `List Nat`), consumed but
undecided tokens sit in `buffer_in`, and decided output sits in `buffer_out`.

Modelling conventions:
- the upstream iterator is a finite list `iter` of remaining tokens;
- Rust slice indexing `s[i]` (which panics when out of bounds) is modelled
  with `List.getElem?`; a failed access propagates as `none` through the
  `Option`-valued step functions, so `none` marks a panic of `fill_buffer`;
- `VecDeque::drain(0..n)` (which panics when `n` exceeds the length) is
  modelled by `drainFront`, again with `none` for the panic;
- `usize` subtraction appears only as `index - start` and `x - 1` on values
  where the candidate invariant gives `start ≤ index` and `1 ≤ x`, so
  truncated `Nat` subtraction agrees with the Rust arithmetic there.
-/

namespace IterReplace

/-- Mirrors the Rust struct `ReplaceState<'a, T>`: one pattern with its set of
in-flight partial-match start positions (`BTreeSet<usize>` kept as an
ascending list). -/
structure ReplaceState (T : Type) where
  search_for : List T
  replace_with : List T
  candidates : List Nat
deriving DecidableEq

/-- Mirrors `ReplaceState::new`: empty candidate set. -/
def ReplaceState.new {T : Type} (search_for replace_with : List T) : ReplaceState T :=
  ⟨search_for, replace_with, []⟩

/-- Mirrors the Rust struct `Replacement<'a, T>` (a pattern pair as passed to
`replace_all`). -/
structure Replacement (T : Type) where
  search_for : List T
  replace_with : List T
deriving DecidableEq

/-- Mirrors `Replacement::new`. -/
def Replacement.new {T : Type} (search_for replace_with : List T) : Replacement T :=
  ⟨search_for, replace_with⟩

/-- Mirrors the Rust struct `Replace<'a, I, T>`; the upstream iterator is the
list of not-yet-consumed tokens. -/
structure Replace (T : Type) where
  iter : List T
  buffer_out : List T
  buffer_in : List T
  replace_states : List (ReplaceState T)
  index : Nat
  flushed_index : Nat
deriving DecidableEq

/-- `BTreeSet<usize>::insert` on an ascending list. -/
def btreeInsert (x : Nat) : List Nat → List Nat
  | [] => [x]
  | y :: rest =>
    if x < y then x :: y :: rest
    else if x = y then y :: rest
    else y :: btreeInsert x rest

variable {T : Type} [DecidableEq T]

/-- The prune step of `fill_buffer`: remove every candidate `s` with
`search_for[index - s] != item`; the slice access panics (`none`) when
`index - s` is out of bounds.  Candidates are visited in ascending order,
as `BTreeSet` iteration does. -/
def pruneCandidates (sf : List T) (index : Nat) (item : T) : List Nat → Option (List Nat)
  | [] => some []
  | s :: rest =>
    match sf[index - s]? with
    | none => none
    | some t =>
      match pruneCandidates sf index item rest with
      | none => none
      | some rest' => some (if t = item then s :: rest' else rest')

/-- The seed step of `fill_buffer`: `search_for[0] == item` inserts `index`
as a new candidate; the access `search_for[0]` panics on an empty pattern. -/
def seedCandidates (sf : List T) (index : Nat) (item : T) (cands : List Nat) :
    Option (List Nat) :=
  match sf[0]? with
  | none => none
  | some t0 => some (if t0 = item then btreeInsert index cands else cands)

/-- Prune then seed for one pattern, as the per-pattern loop body of
`fill_buffer` does. -/
def update_state (index : Nat) (item : T) (ps : ReplaceState T) :
    Option (ReplaceState T) :=
  match pruneCandidates ps.search_for index item ps.candidates with
  | none => none
  | some pruned =>
    match seedCandidates ps.search_for index item pruned with
    | none => none
    | some seeded => some { ps with candidates := seeded }

/-- Prune and seed every pattern, in declaration order. -/
def update_states (index : Nat) (item : T) : List (ReplaceState T) →
    Option (List (ReplaceState T))
  | [] => some []
  | ps :: rest =>
    match update_state index item ps with
    | none => none
    | some ps' =>
      match update_states index item rest with
      | none => none
      | some rest' => some (ps' :: rest')

/-- Per-pattern value inside `calc_flushable_index`: smallest live candidate
minus one, or `index` when the candidate set is empty. -/
def flushValue (index : Nat) (ps : ReplaceState T) : Nat :=
  match ps.candidates.head? with
  | some x => x - 1
  | none => index

/-- Mirrors `Replace::calc_flushable_index`: the minimum of the per-pattern
values, or `0` when there are no patterns (`min().unwrap_or(0)`). -/
def calc_flushable_index (index : Nat) (sts : List (ReplaceState T)) : Nat :=
  match sts.map (flushValue index) with
  | [] => 0
  | x :: xs => xs.foldl min x

/-- Mirrors the completion test inside `matching_term`: take the smallest
candidate (if any) and check `index - x + 1 == search_for.len()`. -/
def completesAt (index : Nat) (ps : ReplaceState T) : Bool :=
  match ps.candidates.head? with
  | none => false
  | some x => decide (index - x + 1 = ps.search_for.length)

/-- Mirrors the post-commit loop that clears every pattern's candidate set. -/
def clearCandidates (sts : List (ReplaceState T)) : List (ReplaceState T) :=
  sts.map fun ps => { ps with candidates := [] }

/-- Mirrors `Vec::drain(0..n)` on the front of `buffer_in`: panics (`none`)
when `n` exceeds the length. -/
def drainFront {U : Type} (n : Nat) (xs : List U) : Option (List U × List U) :=
  if n ≤ xs.length then some (xs.take n, xs.drop n) else none

/-- One iteration of the `'consume` loop of `fill_buffer`, processing one
upstream token: bump `index`, push the token into `buffer_in`, prune/seed all
candidate sets, compute the flushable index, look for a completed match, and
either flush (break), commit a replacement (break) or continue.  The returned
`Bool` is `true` when the loop breaks.  The `iter` field is left untouched;
the caller pops the token. -/
def consume_step (e : Replace T) (item : T) : Option (Replace T × Bool) :=
  let index := e.index + 1
  let buffer_in := e.buffer_in ++ [item]
  match update_states index item e.replace_states with
  | none => none
  | some states =>
    let flush_index := calc_flushable_index index states
    match states.find? (completesAt index) with
    | none =>
      if e.flushed_index < flush_index then
        match drainFront (flush_index - e.flushed_index) buffer_in with
        | none => none
        | some (fl, rest) =>
          some ({ e with
                  buffer_out := e.buffer_out ++ fl
                  buffer_in := rest
                  replace_states := states
                  index := index
                  flushed_index := flush_index }, true)
      else
        some ({ e with
                replace_states := states
                index := index
                buffer_in := buffer_in }, false)
    | some ps =>
      some ({ e with
              buffer_out := e.buffer_out ++ ps.replace_with
              buffer_in := []
              replace_states := clearCandidates states
              index := index
              flushed_index := index }, true)

/-- The `'consume` loop of `fill_buffer`, driven by the list of remaining
upstream tokens. -/
def fill_buffer_go : List T → Replace T → Option (Replace T)
  | [], e => some e
  | item :: rest, e =>
    match consume_step e item with
    | none => none
    | some (e', brk) =>
      if brk then some { e' with iter := rest }
      else fill_buffer_go rest { e' with iter := rest }

/-- Mirrors `Replace::fill_buffer`. -/
def fill_buffer (e : Replace T) : Option (Replace T) :=
  fill_buffer_go e.iter e

/-- Mirrors `Replace::adapt`. -/
def Replace.adapt (iter : List T) (replace_states : List (ReplaceState T)) : Replace T :=
  ⟨iter, [], [], replace_states, 0, 0⟩

/-- Mirrors `ReplaceIter::replace` applied to the upstream sequence `iter`. -/
def replace (iter : List T) (search_for replace_with : List T) : Replace T :=
  Replace.adapt iter [ReplaceState.new search_for replace_with]

/-- Mirrors `ReplaceIter::replace_all` applied to the upstream sequence `iter`. -/
def replace_all (iter : List T) (replacements : List (Replacement T)) : Replace T :=
  Replace.adapt iter
    (replacements.map fun r => ReplaceState.new r.search_for r.replace_with)

/-- Mirrors `<Replace as Iterator>::next`: fill when `buffer_out` is empty,
then pop its front.  The outer `none` is a panic inside `fill_buffer`; the
inner `Option T` is the iterator's yielded value. -/
def next (e : Replace T) : Option (Option T × Replace T) :=
  match (if e.buffer_out.isEmpty then fill_buffer e else some e) with
  | none => none
  | some e' =>
    match e'.buffer_out with
    | [] => some (none, e')
    | x :: rest => some (some x, { e' with buffer_out := rest })

/-- Exhausting the iterator (as `collect()` does): call `next` until it
yields `none`.  `fuel` bounds the number of pulls; running out of fuel and a
panic both give `none`, and every theorem below asserts a `some` result. -/
def collect : Nat → Replace T → Option (List T)
  | 0, _ => none
  | fuel + 1, e =>
    match next e with
    | none => none
    | some (none, _) => some []
    | some (some t, e') =>
      match collect fuel e' with
      | none => none
      | some rest => some (t :: rest)

/-- Soundness of a candidate start position `s` (1-based) against the original
upstream sequence `orig` after `n` tokens have been consumed: the consumed
tokens at positions `s .. n` coincide with the first `n - s + 1` tokens of the
search pattern `sf`. -/
def CandOK (orig : List T) (n s : Nat) (sf : List T) : Prop :=
  1 ≤ s ∧ s ≤ n ∧ ∀ k, k ≤ n - s → orig[s - 1 + k]? = sf[k]?

/-- The candidate-set invariant for one pattern after a full consume step:
ascending set, every member sound, and strictly fewer tokens matched than the
pattern length (a completed match is committed and cleared immediately, so it
never survives a step). -/
def CandInv (orig : List T) (n : Nat) (ps : ReplaceState T) : Prop :=
  ps.candidates.Sorted (· < ·) ∧
  ∀ s ∈ ps.candidates, CandOK orig n s ps.search_for ∧ n - s + 1 < ps.search_for.length

/-- The weak candidate invariant holding between prune/seed and the
completion check: a member may have matched the full pattern. -/
def CandInvW (orig : List T) (n : Nat) (ps : ReplaceState T) : Prop :=
  ps.candidates.Sorted (· < ·) ∧
  ∀ s ∈ ps.candidates, CandOK orig n s ps.search_for ∧ n - s + 1 ≤ ps.search_for.length

/-- The engine invariant relative to the original upstream sequence `orig`:
`iter` is the unconsumed suffix, the flushed watermark is below the position
counter, `buffer_in` holds exactly the tokens at positions
`flushed_index + 1 .. index`, and every pattern satisfies `CandInv`. -/
def EngineInv (orig : List T) (e : Replace T) : Prop :=
  e.iter = orig.drop e.index ∧
  e.flushed_index ≤ e.index ∧
  e.buffer_in.length = e.index - e.flushed_index ∧
  ∀ ps ∈ e.replace_states, CandInv orig e.index ps

/-- One observable engine transition: either one iteration of the `'consume`
loop (consuming the next upstream token), or the iterator popping the front of
`buffer_out`. -/
inductive Step : Replace T → Replace T → Prop
  | consume (e : Replace T) (item : T) (rest : List T) (e' : Replace T) (brk : Bool)
      (hiter : e.iter = item :: rest) (h : consume_step e item = some (e', brk)) :
      Step e { e' with iter := rest }
  | pop (e : Replace T) (x : T) (rest : List T) (h : e.buffer_out = x :: rest) :
      Step e { e with buffer_out := rest }

/-- Reachability of engine states through `Step` transitions. -/
def Reachable (e e' : Replace T) : Prop :=
  Relation.ReflTransGen Step e e'

theorem btreeInsert_mem (x : Nat) : ∀ (l : List Nat) (y : Nat),
    y ∈ btreeInsert x l ↔ y = x ∨ y ∈ l := by
  intro l
  induction l with
  | nil => intro y; simp [btreeInsert]
  | cons z rest ih =>
    intro y
    simp only [btreeInsert]
    split_ifs with h1 h2
    · simp only [List.mem_cons]
    · subst h2
      simp only [List.mem_cons]
      tauto
    · simp only [List.mem_cons, ih]
      tauto

theorem btreeInsert_sorted (x : Nat) : ∀ l : List Nat,
    l.Sorted (· < ·) → (btreeInsert x l).Sorted (· < ·) := by
  intro l
  induction l with
  | nil => intro _; simp [btreeInsert]
  | cons z rest ih =>
    intro hs
    rw [List.sorted_cons] at hs
    simp only [btreeInsert]
    split_ifs with h1 h2
    · rw [List.sorted_cons]
      refine ⟨?_, ?_⟩
      · intro b hb
        rcases List.mem_cons.mp hb with h | h
        · omega
        · have := hs.1 b h; omega
      · rw [List.sorted_cons]; exact hs
    · rw [List.sorted_cons]; exact hs
    · rw [List.sorted_cons]
      refine ⟨?_, ih hs.2⟩
      intro b hb
      rcases (btreeInsert_mem x rest b).mp hb with h | h
      · omega
      · exact hs.1 b h

theorem foldl_min_le : ∀ (l : List Nat) (a : Nat), l.foldl min a ≤ a := by
  intro l
  induction l with
  | nil => intro a; simp
  | cons x rest ih =>
    intro a
    have := ih (min a x)
    simp only [List.foldl_cons]
    omega

theorem mem_of_head? {l : List Nat} {x : Nat} (h : l.head? = some x) : x ∈ l := by
  cases l with
  | nil => cases h
  | cons a t =>
    injection h with h
    subst h
    exact List.mem_cons_self a t

theorem head?_le_of_sorted {l : List Nat} (hs : l.Sorted (· < ·)) {x y : Nat}
    (hh : l.head? = some x) (hy : y ∈ l) : x ≤ y := by
  cases l with
  | nil => cases hh
  | cons a t =>
    injection hh with hh
    subst hh
    rcases List.mem_cons.mp hy with h | h
    · omega
    · have := (List.sorted_cons.mp hs).1 y h
      omega

theorem pruneCandidates_spec (sf : List T) (n : Nat) (item : T) :
    ∀ cs cs', pruneCandidates sf n item cs = some cs' →
      List.Sublist cs' cs ∧ ∀ s ∈ cs', sf[n - s]? = some item := by
  intro cs
  induction cs with
  | nil =>
    intro cs' h
    simp only [pruneCandidates] at h
    injection h with h
    subst h
    exact ⟨List.Sublist.refl _, by simp⟩
  | cons s rest ih =>
    intro cs' h
    simp only [pruneCandidates] at h
    split at h
    · cases h
    · next t hg =>
      split at h
      · cases h
      · next rest' hp =>
        injection h with h
        subst h
        obtain ⟨hsub, hmem⟩ := ih rest' hp
        split_ifs with ht
        · refine ⟨List.Sublist.cons₂ s hsub, ?_⟩
          intro y hy
          rcases List.mem_cons.mp hy with h | h
          · subst h; rw [hg, ht]
          · exact hmem y h
        · exact ⟨List.Sublist.cons s hsub, hmem⟩

theorem seedCandidates_spec (sf : List T) (n : Nat) (item : T) (cs cs' : List Nat)
    (h : seedCandidates sf n item cs = some cs') :
    ∃ t0, sf[0]? = some t0 ∧ cs' = if t0 = item then btreeInsert n cs else cs := by
  simp only [seedCandidates] at h
  split at h
  · cases h
  · next t0 hg =>
    injection h with h
    exact ⟨t0, hg, h.symm⟩

theorem update_state_spec (nn : Nat) (item : T) (ps ps' : ReplaceState T)
    (h : update_state nn item ps = some ps') :
    ps'.search_for = ps.search_for ∧ ps'.replace_with = ps.replace_with ∧
    ∃ pruned, pruneCandidates ps.search_for nn item ps.candidates = some pruned ∧
      seedCandidates ps.search_for nn item pruned = some ps'.candidates := by
  simp only [update_state] at h
  split at h
  · cases h
  · next pruned hp =>
    split at h
    · cases h
    · next seeded hs =>
      injection h with h
      subst h
      exact ⟨rfl, rfl, pruned, hp, hs⟩

theorem update_states_mem (nn : Nat) (item : T) :
    ∀ sts sts', update_states nn item sts = some sts' →
      ∀ ps' ∈ sts', ∃ ps ∈ sts, update_state nn item ps = some ps' := by
  intro sts
  induction sts with
  | nil =>
    intro sts' h
    simp only [update_states] at h
    injection h with h
    subst h
    intro ps' hps'
    cases hps'
  | cons ps rest ih =>
    intro sts' h
    simp only [update_states] at h
    split at h
    · cases h
    · next q hu =>
      split at h
      · cases h
      · next rest' hr =>
        injection h with h
        subst h
        intro ps' hps'
        rcases List.mem_cons.mp hps' with h | h
        · subst h; exact ⟨ps, List.mem_cons_self _ _, hu⟩
        · obtain ⟨q0, hq0, hq0u⟩ := ih rest' hr ps' h
          exact ⟨q0, List.mem_cons_of_mem _ hq0, hq0u⟩

omit [DecidableEq T] in
theorem calc_flushable_le (nn : Nat) (sts : List (ReplaceState T))
    (h : ∀ ps ∈ sts, ∀ s ∈ ps.candidates, s ≤ nn) :
    calc_flushable_index nn sts ≤ nn := by
  cases sts with
  | nil => simp [calc_flushable_index]
  | cons ps rest =>
    simp only [calc_flushable_index, List.map_cons]
    have h1 : flushValue nn ps ≤ nn := by
      simp only [flushValue]
      split
      · next x hh =>
        have hx := h ps (List.mem_cons_self _ _) x (mem_of_head? hh)
        omega
      · exact Nat.le_refl _
    have h2 := foldl_min_le (rest.map (flushValue nn)) (flushValue nn ps)
    omega

theorem update_state_inv (orig : List T) (m : Nat) (item : T)
    (horig : orig[m]? = some item) (ps ps' : ReplaceState T)
    (hinv : CandInv orig m ps)
    (h : update_state (m + 1) item ps = some ps') :
    ps'.search_for = ps.search_for ∧ ps'.replace_with = ps.replace_with ∧
    CandInvW orig (m + 1) ps' := by
  obtain ⟨hsf, hrw, pruned, hp, hs⟩ := update_state_spec (m + 1) item ps ps' h
  obtain ⟨hsub, hpm⟩ := pruneCandidates_spec ps.search_for (m + 1) item ps.candidates pruned hp
  obtain ⟨hsorted, hmem⟩ := hinv
  have hpruned : ∀ s ∈ pruned, CandOK orig (m + 1) s ps.search_for ∧
      m + 1 - s + 1 ≤ ps.search_for.length := by
    intro s hsmem
    have hsin : s ∈ ps.candidates := hsub.subset hsmem
    obtain ⟨⟨hs1, hsm, hhist⟩, hlt⟩ := hmem s hsin
    refine ⟨⟨hs1, by omega, ?_⟩, by omega⟩
    intro k hk
    by_cases hk2 : k ≤ m - s
    · exact hhist k hk2
    · have hkeq : k = m + 1 - s := by omega
      subst hkeq
      have hix : s - 1 + (m + 1 - s) = m := by omega
      rw [hix, horig, ← hpm s hsmem]
  obtain ⟨t0, hg0, hseed⟩ := seedCandidates_spec ps.search_for (m + 1) item pruned
    ps'.candidates hs
  have hlen0 : 0 < ps.search_for.length := by
    by_contra hc
    push_neg at hc
    have hnil : ps.search_for = [] := List.length_eq_zero.mp (by omega)
    rw [hnil] at hg0
    simp at hg0
  have hsp : pruned.Sorted (· < ·) := List.Pairwise.sublist hsub hsorted
  refine ⟨hsf, hrw, ?_, ?_⟩
  · rw [hseed]
    split_ifs
    · exact btreeInsert_sorted _ _ hsp
    · exact hsp
  · intro s hsmem
    rw [hsf]
    rw [hseed] at hsmem
    split_ifs at hsmem with ht0
    · rcases (btreeInsert_mem _ _ _).mp hsmem with hnew | hold
      · subst hnew
        refine ⟨⟨by omega, by omega, ?_⟩, by omega⟩
        intro k hk
        have hk0 : k = 0 := by omega
        subst hk0
        have hix : m + 1 - 1 + 0 = m := by omega
        rw [hix, horig, hg0, ht0]
      · exact hpruned s hold
    · exact hpruned s hsmem

theorem update_states_inv (orig : List T) (m : Nat) (item : T)
    (horig : orig[m]? = some item) (sts sts' : List (ReplaceState T))
    (hall : ∀ ps ∈ sts, CandInv orig m ps)
    (h : update_states (m + 1) item sts = some sts') :
    ∀ ps' ∈ sts', CandInvW orig (m + 1) ps' := by
  intro ps' hps'
  obtain ⟨ps, hpsmem, hup⟩ := update_states_mem (m + 1) item sts sts' h ps' hps'
  exact (update_state_inv orig m item horig ps ps' (hall ps hpsmem) hup).2.2

omit [DecidableEq T] in
theorem no_match_upgrade (orig : List T) (n : Nat) (sts : List (ReplaceState T))
    (hw : ∀ ps ∈ sts, CandInvW orig n ps)
    (hnone : sts.find? (completesAt n) = none) :
    ∀ ps ∈ sts, CandInv orig n ps := by
  intro ps hps
  obtain ⟨hsorted, hmem⟩ := hw ps hps
  refine ⟨hsorted, ?_⟩
  intro s hs
  obtain ⟨hok, hle⟩ := hmem s hs
  refine ⟨hok, ?_⟩
  rcases Nat.lt_or_ge (n - s + 1) ps.search_for.length with hcase | hcase
  · exact hcase
  · exfalso
    have heq : n - s + 1 = ps.search_for.length := by omega
    have hfalse := List.find?_eq_none.mp hnone ps hps
    cases hh : ps.candidates.head? with
    | none =>
      cases hcand : ps.candidates with
      | nil => rw [hcand] at hs; cases hs
      | cons a t => rw [hcand] at hh; cases hh
    | some x =>
      have hxmem := mem_of_head? hh
      have hxle := head?_le_of_sorted hsorted hh hs
      obtain ⟨⟨h1x, hxn, _⟩, hlex⟩ := hmem x hxmem
      obtain ⟨h1s, hsn, _⟩ := hok
      have hxok : n - x + 1 = ps.search_for.length := by omega
      have hcomp : completesAt n ps = true := by
        simp only [completesAt]
        rw [hh]
        exact decide_eq_true hxok
      exact hfalse hcomp

theorem consume_step_inv (orig : List T) (e : Replace T) (item : T) (rest : List T)
    (hI : EngineInv orig e) (hiter : e.iter = item :: rest)
    (e' : Replace T) (brk : Bool) (h : consume_step e item = some (e', brk)) :
    EngineInv orig { e' with iter := rest } := by
  obtain ⟨hin, hfl, hbuf, hcand⟩ := hI
  have hdrop : orig.drop e.index = item :: rest := by rw [← hin, hiter]
  have horig : orig[e.index]? = some item := by
    have hx := List.getElem?_drop orig e.index 0
    rw [hdrop] at hx
    simpa using hx.symm
  have hrest : orig.drop (e.index + 1) = rest := by
    have hx : orig.drop (e.index + 1) = (orig.drop e.index).drop 1 := by
      rw [List.drop_drop]
    rw [hx, hdrop]
    rfl
  simp only [consume_step] at h
  split at h
  · cases h
  · next sts' hup =>
    have hW : ∀ ps' ∈ sts', CandInvW orig (e.index + 1) ps' :=
      update_states_inv orig e.index item horig e.replace_states sts' hcand hup
    have hbound : ∀ ps ∈ sts', ∀ s ∈ ps.candidates, s ≤ e.index + 1 := by
      intro ps hps s hs
      exact ((hW ps hps).2 s hs).1.2.1
    have hcalc : calc_flushable_index (e.index + 1) sts' ≤ e.index + 1 :=
      calc_flushable_le (e.index + 1) sts' hbound
    split at h
    · next hnone =>
      have hS : ∀ ps' ∈ sts', CandInv orig (e.index + 1) ps' :=
        no_match_upgrade orig (e.index + 1) sts' hW hnone
      split_ifs at h with hflt
      · split at h
        · cases h
        · next fl rest2 hdr =>
          simp only [drainFront] at hdr
          split_ifs at hdr with hguard
          · injection hdr with hdr
            injection hdr with hfl2 hrest2
            injection h with h
            injection h with h1 h2
            subst h1
            refine ⟨?_, ?_, ?_, ?_⟩
            · dsimp only
              exact hrest.symm
            · dsimp only
              omega
            · dsimp only
              rw [← hrest2, List.length_drop, List.length_append]
              simp only [List.length_cons, List.length_nil]
              omega
            · dsimp only
              exact hS
      · injection h with h
        injection h with h1 h2
        subst h1
        refine ⟨?_, ?_, ?_, ?_⟩
        · dsimp only
          exact hrest.symm
        · dsimp only
          omega
        · dsimp only
          rw [List.length_append]
          simp only [List.length_cons, List.length_nil]
          omega
        · dsimp only
          exact hS
    · next ps hfind =>
      injection h with h
      injection h with h1 h2
      subst h1
      refine ⟨?_, ?_, ?_, ?_⟩
      · dsimp only
        exact hrest.symm
      · dsimp only
        exact Nat.le_refl _
      · dsimp only
        simp only [List.length_nil]
        omega
      · dsimp only
        intro ps' hps'
        simp only [clearCandidates, List.mem_map] at hps'
        obtain ⟨q, hq, hqeq⟩ := hps'
        rw [← hqeq]
        exact ⟨List.sorted_nil, by intro s hs; cases hs⟩

theorem step_inv (orig : List T) (e e' : Replace T)
    (hI : EngineInv orig e) (h : Step e e') : EngineInv orig e' := by
  cases h with
  | consume item rest e2 brk hiter hc =>
    exact consume_step_inv orig e item rest hI hiter e2 brk hc
  | pop x rest hbo =>
    exact hI

theorem reachable_inv (orig : List T) (e e' : Replace T)
    (hI : EngineInv orig e) (h : Reachable e e') : EngineInv orig e' := by
  induction h with
  | refl => exact hI
  | tail _ hstep ih => exact step_inv orig _ _ ih hstep

omit [DecidableEq T] in
theorem adapt_inv (orig : List T) (sts : List (ReplaceState T))
    (h0 : ∀ ps ∈ sts, ps.candidates = []) :
    EngineInv orig (Replace.adapt orig sts) := by
  refine ⟨rfl, Nat.le_refl _, rfl, ?_⟩
  intro ps hps
  have hc := h0 ps hps
  refine ⟨?_, ?_⟩
  · rw [hc]; exact List.sorted_nil
  · intro s hs
    rw [hc] at hs
    cases hs

theorem update_states_fields (nn : Nat) (item : T) (sts sts' : List (ReplaceState T))
    (h : update_states nn item sts = some sts') :
    ∀ ps' ∈ sts', ∃ ps ∈ sts,
      ps'.search_for = ps.search_for ∧ ps'.replace_with = ps.replace_with := by
  intro ps' hps'
  obtain ⟨ps, hm, hu⟩ := update_states_mem nn item sts sts' h ps' hps'
  obtain ⟨h1, h2, _⟩ := update_state_spec nn item ps ps' hu
  exact ⟨ps, hm, h1, h2⟩

theorem consume_step_out (e : Replace T) (item : T) (e1 : Replace T) (brk : Bool)
    (h : consume_step e item = some (e1, brk))
    (hrep : ∀ ps ∈ e.replace_states, ps.replace_with ≠ []) :
    e1.iter = e.iter ∧
    (∀ ps ∈ e1.replace_states, ps.replace_with ≠ []) ∧
    ((brk = false ∧ e1.buffer_out = e.buffer_out) ∨
     (brk = true ∧ ∃ ext, ext ≠ [] ∧ e1.buffer_out = e.buffer_out ++ ext)) := by
  simp only [consume_step] at h
  split at h
  · cases h
  · next sts' hup =>
    have hreps' : ∀ ps' ∈ sts', ps'.replace_with ≠ [] := by
      intro ps' hps'
      obtain ⟨ps, hm, _, h2⟩ := update_states_fields _ item e.replace_states sts' hup ps' hps'
      rw [h2]
      exact hrep ps hm
    split at h
    · next hnone =>
      split_ifs at h with hflt
      · split at h
        · cases h
        · next fl rest2 hdr =>
          simp only [drainFront] at hdr
          split_ifs at hdr with hguard
          · injection hdr with hdr
            injection hdr with hfl2 hrest2
            injection h with h
            injection h with h1 h2
            subst h1
            subst h2
            refine ⟨rfl, hreps', Or.inr ⟨rfl, fl, ?_, rfl⟩⟩
            rw [← hfl2]
            intro hnil
            have hlen := congrArg List.length hnil
            rw [List.length_take, List.length_append] at hlen
            simp only [List.length_cons, List.length_nil] at hlen
            omega
      · injection h with h
        injection h with h1 h2
        subst h1
        subst h2
        exact ⟨rfl, hreps', Or.inl ⟨rfl, rfl⟩⟩
    · next ps hfind =>
      injection h with h
      injection h with h1 h2
      subst h1
      subst h2
      have hmem : ps ∈ sts' := List.mem_of_find?_eq_some hfind
      refine ⟨rfl, ?_, Or.inr ⟨rfl, ps.replace_with, hreps' ps hmem, rfl⟩⟩
      intro ps' hps'
      simp only [clearCandidates, List.mem_map] at hps'
      obtain ⟨q, hq, hqe⟩ := hps'
      rw [← hqe]
      exact hreps' q hq

theorem fill_buffer_go_out : ∀ (inp : List T) (e e' : Replace T), e.iter = inp →
    fill_buffer_go inp e = some e' →
    (∀ ps ∈ e.replace_states, ps.replace_with ≠ []) →
    ∃ ext, e'.buffer_out = e.buffer_out ++ ext ∧ (ext = [] → e'.iter = []) := by
  intro inp
  induction inp with
  | nil =>
    intro e e' hit h hrep
    simp only [fill_buffer_go] at h
    injection h with h
    subst h
    exact ⟨[], by simp, fun _ => hit⟩
  | cons item rest ih =>
    intro e e' hit h hrep
    simp only [fill_buffer_go] at h
    split at h
    · cases h
    · next e1 brk hc =>
      obtain ⟨hit1, hrep1, hdisj⟩ := consume_step_out e item e1 brk hc hrep
      cases brk with
      | false =>
        simp only [if_neg Bool.false_ne_true] at h
        rcases hdisj with ⟨_, hbo⟩ | ⟨hcontr, _⟩
        · obtain ⟨ext, hbo', himp⟩ := ih { e1 with iter := rest } e' rfl h hrep1
          refine ⟨ext, ?_, himp⟩
          rw [hbo']
          dsimp only
          rw [hbo]
        · cases hcontr
      | true =>
        simp only [if_pos rfl] at h
        injection h with h
        subst h
        rcases hdisj with ⟨hcontr, _⟩ | ⟨_, ext, hne, hbo⟩
        · cases hcontr
        · refine ⟨ext, ?_, fun hcon => absurd hcon hne⟩
          dsimp only
          exact hbo

theorem fill_buffer_go_no_states : ∀ (inp : List T) (e : Replace T),
    e.replace_states = [] → e.iter = inp →
    fill_buffer_go inp e = some { e with
      iter := []
      buffer_in := e.buffer_in ++ inp
      index := e.index + inp.length } := by
  intro inp
  induction inp with
  | nil =>
    intro e hst hit
    obtain ⟨it, bo, bi, sts, i, f⟩ := e
    dsimp only at hit
    subst hit
    simp [fill_buffer_go]
  | cons item rest ih =>
    intro e hst hit
    obtain ⟨it, bo, bi, sts, i, f⟩ := e
    dsimp only at hst hit
    subst hst
    subst hit
    have hstep : consume_step (⟨item :: rest, bo, bi, [], i, f⟩ : Replace T) item =
        some (⟨item :: rest, bo, bi ++ [item], [], i + 1, f⟩, false) := by
      simp only [consume_step, update_states, List.find?, calc_flushable_index, List.map_nil]
      rw [if_neg (Nat.not_lt_zero f)]
    simp only [fill_buffer_go, hstep]
    rw [if_neg Bool.false_ne_true]
    have := ih (⟨rest, bo, bi ++ [item], [], i + 1, f⟩ : Replace T) rfl rfl
    rw [this]
    simp only [List.append_assoc, List.singleton_append, List.length_cons]
    congr 1
    dsimp only
    congr 1
    omega

theorem collect_cons (fuel : Nat) (e e' : Replace T) (t : T) (out : List T)
    (h1 : next e = some (some t, e')) (h2 : collect fuel e' = some out) :
    collect (fuel + 1) e = some (t :: out) := by
  simp only [collect, h1, h2]

theorem collect_none (fuel : Nat) (e e' : Replace T)
    (h1 : next e = some (none, e')) :
    collect (fuel + 1) e = some [] := by
  simp only [collect, h1]

theorem fill_buffer_go_reaches : ∀ (inp : List T) (e e' : Replace T), e.iter = inp →
    fill_buffer_go inp e = some e' → Reachable e e' := by
  intro inp
  induction inp with
  | nil =>
    intro e e' _ h
    simp only [fill_buffer_go] at h
    injection h with h
    subst h
    exact Relation.ReflTransGen.refl
  | cons item rest ih =>
    intro e e' hit h
    simp only [fill_buffer_go] at h
    split at h
    · cases h
    · next e1 brk hc =>
      have hstep : Step e { e1 with iter := rest } := Step.consume e item rest e1 brk hit hc
      cases brk with
      | false =>
        simp only [if_neg Bool.false_ne_true] at h
        exact Relation.ReflTransGen.head hstep (ih { e1 with iter := rest } e' rfl h)
      | true =>
        simp only [if_pos rfl] at h
        injection h with h
        subst h
        exact Relation.ReflTransGen.single hstep

theorem next_reaches (e : Replace T) (r : Option T) (e' : Replace T)
    (h : next e = some (r, e')) : Reachable e e' := by
  simp only [next] at h
  split at h
  · cases h
  · next e2 hfill =>
    have hreach : Reachable e e2 := by
      by_cases hbo : e.buffer_out.isEmpty
      · rw [if_pos hbo] at hfill
        exact fill_buffer_go_reaches e.iter e e2 rfl hfill
      · rw [if_neg hbo] at hfill
        injection hfill with hfill
        subst hfill
        exact Relation.ReflTransGen.refl
    split at h
    · injection h with h
      injection h with h1 h2
      subst h2
      exact hreach
    · next x rest2 hbo2 =>
      injection h with h
      injection h with h1 h2
      subst h2
      exact Relation.ReflTransGen.tail hreach (Step.pop e2 x rest2 hbo2)

/-- C1 (code-bug evidence): for input `[5, 1]` and pattern `[1, 2] → [9]`,
upstream exhausts while `buffer_in = [1]` is held back by the open candidate
seeded at position 2 and no further match is possible; the engine signals
end-of-sequence without flushing it.  Exhausting the iterator yields `[5]`
instead of the `[5, 1]` that the claimed end-of-stream drain would produce:
the second pull returns `none` while the pending token `1` is still sitting
in `buffer_in`. -/
theorem c1_trailing_tokens_dropped :
    collect 10 (replace ([5, 1] : List Nat) [1, 2] [9]) = some [5] ∧
    ((next (replace ([5, 1] : List Nat) [1, 2] [9])).bind fun p => next p.2).map
        (fun p => (p.1, p.2.iter, p.2.buffer_in)) = some (none, [], [1]) := by
  decide

/-- C2 (counterexample): for the engine `replace [1, 2] [1] []` (replacement
pattern empty), the very first pull consumes the token `1`, commits the match,
appends the empty replacement to `buffer_out` and breaks; the pull then
returns `none` although the upstream still holds the unconsumed token `2` —
refuting the claim that `none` is returned only on upstream exhaustion. -/
theorem c2_counterexample :
    (next (replace ([1, 2] : List Nat) [1] [])).map (fun p => (p.1, p.2.iter)) =
      some (none, [2]) := by
  decide

/-- C2 (amended): each pull with non-empty `buffer_out` pops and returns its
front token; and, provided every pattern's `replace_with` is non-empty (the
proviso forced by `c2_counterexample`), a pull that returns `none` does so
only with the upstream sequence exhausted (and `buffer_out` empty). -/
theorem c2_pull_contract (e : Replace T)
    (hrep : ∀ ps ∈ e.replace_states, ps.replace_with ≠ [])
    (r : Option T) (e' : Replace T) (h : next e = some (r, e')) :
    (e.buffer_out ≠ [] → r = e.buffer_out.head? ∧ e'.buffer_out = e.buffer_out.tail) ∧
    (r = none → e'.iter = [] ∧ e'.buffer_out = []) := by
  have hfront : ∀ x rest2, e.buffer_out = x :: rest2 →
      next e = some (some x, { e with buffer_out := rest2 }) := by
    intro x rest2 hbo
    simp [next, hbo]
  constructor
  · intro hne
    cases hboe : e.buffer_out with
    | nil => exact absurd hboe hne
    | cons x rest2 =>
      rw [hfront x rest2 hboe] at h
      injection h with h
      injection h with h1 h2
      subst h1
      subst h2
      exact ⟨rfl, rfl⟩
  · intro hr
    subst hr
    cases hboe : e.buffer_out with
    | cons x rest2 =>
      rw [hfront x rest2 hboe] at h
      injection h with h
      injection h with h1 h2
      cases h1
    | nil =>
      have hempty : e.buffer_out.isEmpty = true := by rw [hboe]; rfl
      simp only [next, if_pos hempty] at h
      split at h
      · cases h
      · next e2 hfill =>
        split at h
        · next hbo2 =>
          injection h with h
          injection h with h1 h2
          subst h2
          obtain ⟨ext, hext, himp⟩ := fill_buffer_go_out e.iter e e2 rfl hfill hrep
          rw [hboe, List.nil_append] at hext
          have hextnil : ext = [] := by rw [← hext, hbo2]
          exact ⟨himp hextnil, hbo2⟩
        · next x rest2 hbo2 =>
          injection h with h
          injection h with h1 h2
          cases h1

/-- Witness for `c2_pull_contract` at the engine `replace [1, 2, 3] [2] [10]`,
whose first pull flushes and returns the token `1`. -/
theorem c2_pull_contract_witness :
    ((replace ([1, 2, 3] : List Nat) [2] [10]).buffer_out ≠ [] →
      (some 1 : Option Nat) = (replace ([1, 2, 3] : List Nat) [2] [10]).buffer_out.head? ∧
      (⟨[2, 3], [], [], [ReplaceState.new [2] [10]], 1, 1⟩ : Replace Nat).buffer_out =
        (replace ([1, 2, 3] : List Nat) [2] [10]).buffer_out.tail) ∧
    ((some 1 : Option Nat) = none →
      (⟨[2, 3], [], [], [ReplaceState.new [2] [10]], 1, 1⟩ : Replace Nat).iter = [] ∧
      (⟨[2, 3], [], [], [ReplaceState.new [2] [10]], 1, 1⟩ : Replace Nat).buffer_out = []) :=
  c2_pull_contract (replace ([1, 2, 3] : List Nat) [2] [10]) (by decide) (some 1)
    ⟨[2, 3], [], [], [ReplaceState.new [2] [10]], 1, 1⟩ (by decide)

/-- C3 (code-bug evidence): input `[3, 4, 5]`, pattern `[4, 5, 1] → [100, 200]`:
no match is ever committed, yet the input tokens `4` and `5` — held back by the
open candidate when upstream exhausts — never appear in the output.  Exhausting
the iterator yields `[3]`, so token conservation outside committed matches
fails on the reference code (same missing end-of-stream drain as C1). -/
theorem c3_conservation_violated :
    collect 10 (replace ([3, 4, 5] : List Nat) [4, 5, 1] [100, 200]) = some [3] := by
  decide

/-- C4 (counterexample): a zero-length `search_for` is not rejected at
construction: the engine is built and, over an empty upstream, even iterates
to a clean end-of-sequence; over the non-empty upstream `[5]` the very same
construction succeeds and only the later pull panics (`none` here models the
out-of-bounds `search_for[0]` in the seed step), refuting the claim that
construction itself fails. -/
theorem c4_counterexample :
    (next (replace ([] : List Nat) [] [9])).isSome = true ∧
    (next (replace ([5] : List Nat) [] [9])).isSome = false := by
  decide

/-- C4 (amended): an engine constructed with a zero-length `search_for` is
accepted; the contract violation surfaces only during iteration: on any
non-empty upstream the first consumed token reaches the seed step's
out-of-bounds access `search_for[0]`, so the pull panics (modelled as
`next` returning `none` at the outer level). -/
theorem c4_empty_search_panics (t : T) (rest rep : List T) :
    next (replace (t :: rest) [] rep) = none := rfl

/-- C5: with patterns `[a, b] → [A, B]` declared at rank 0 and
`[a, b, c] → [A, B, C]` at rank 1, on input `a, b, c, a, b, c` the rank-0
pattern completes first at each anchor, so exhausting the iterator gives the
rank-0 replacement at both anchors with each remaining `c` untouched —
`A, B, c, A, B, c` — and the rank-1 replacement never appears. -/
theorem c5_declared_order_precedence (a b c A B C : T) (hab : a ≠ b) (hac : a ≠ c) :
    collect 8 (replace_all [a, b, c, a, b, c]
      [Replacement.new [a, b] [A, B], Replacement.new [a, b, c] [A, B, C]]) =
    some [A, B, c, A, B, c] := by
  have h1 : next (replace_all [a, b, c, a, b, c]
      [Replacement.new [a, b] [A, B], Replacement.new [a, b, c] [A, B, C]]) =
      some (some A, ⟨[c, a, b, c], [B], [],
        [⟨[a, b], [A, B], []⟩, ⟨[a, b, c], [A, B, C], []⟩], 2, 2⟩) := by
    simp [next, fill_buffer, fill_buffer_go, consume_step, update_states, update_state,
      pruneCandidates, seedCandidates, btreeInsert, calc_flushable_index, flushValue,
      completesAt, clearCandidates, drainFront, replace_all, Replacement.new,
      ReplaceState.new, Replace.adapt, List.find?, hab, hac]
  have h2 : next (⟨[c, a, b, c], [B], [],
      [⟨[a, b], [A, B], []⟩, ⟨[a, b, c], [A, B, C], []⟩], 2, 2⟩ : Replace T) =
      some (some B, ⟨[c, a, b, c], [], [],
        [⟨[a, b], [A, B], []⟩, ⟨[a, b, c], [A, B, C], []⟩], 2, 2⟩) := by
    simp [next]
  have h3 : next (⟨[c, a, b, c], [], [],
      [⟨[a, b], [A, B], []⟩, ⟨[a, b, c], [A, B, C], []⟩], 2, 2⟩ : Replace T) =
      some (some c, ⟨[a, b, c], [], [],
        [⟨[a, b], [A, B], []⟩, ⟨[a, b, c], [A, B, C], []⟩], 3, 3⟩) := by
    simp [next, fill_buffer, fill_buffer_go, consume_step, update_states, update_state,
      pruneCandidates, seedCandidates, btreeInsert, calc_flushable_index, flushValue,
      completesAt, clearCandidates, drainFront, List.find?, hab, hac]
  have h4 : next (⟨[a, b, c], [], [],
      [⟨[a, b], [A, B], []⟩, ⟨[a, b, c], [A, B, C], []⟩], 3, 3⟩ : Replace T) =
      some (some A, ⟨[c], [B], [],
        [⟨[a, b], [A, B], []⟩, ⟨[a, b, c], [A, B, C], []⟩], 5, 5⟩) := by
    simp [next, fill_buffer, fill_buffer_go, consume_step, update_states, update_state,
      pruneCandidates, seedCandidates, btreeInsert, calc_flushable_index, flushValue,
      completesAt, clearCandidates, drainFront, List.find?, hab, hac]
  have h5 : next (⟨[c], [B], [],
      [⟨[a, b], [A, B], []⟩, ⟨[a, b, c], [A, B, C], []⟩], 5, 5⟩ : Replace T) =
      some (some B, ⟨[c], [], [],
        [⟨[a, b], [A, B], []⟩, ⟨[a, b, c], [A, B, C], []⟩], 5, 5⟩) := by
    simp [next]
  have h6 : next (⟨[c], [], [],
      [⟨[a, b], [A, B], []⟩, ⟨[a, b, c], [A, B, C], []⟩], 5, 5⟩ : Replace T) =
      some (some c, ⟨[], [], [],
        [⟨[a, b], [A, B], []⟩, ⟨[a, b, c], [A, B, C], []⟩], 6, 6⟩) := by
    simp [next, fill_buffer, fill_buffer_go, consume_step, update_states, update_state,
      pruneCandidates, seedCandidates, btreeInsert, calc_flushable_index, flushValue,
      completesAt, clearCandidates, drainFront, List.find?, hab, hac]
  have h7 : next (⟨[], [], [],
      [⟨[a, b], [A, B], []⟩, ⟨[a, b, c], [A, B, C], []⟩], 6, 6⟩ : Replace T) =
      some (none, ⟨[], [], [],
        [⟨[a, b], [A, B], []⟩, ⟨[a, b, c], [A, B, C], []⟩], 6, 6⟩) := by
    simp [next, fill_buffer, fill_buffer_go]
  exact collect_cons 7 _ _ _ _ h1 (collect_cons 6 _ _ _ _ h2 (collect_cons 5 _ _ _ _ h3
    (collect_cons 4 _ _ _ _ h4 (collect_cons 3 _ _ _ _ h5 (collect_cons 2 _ _ _ _ h6
      (collect_none 1 _ _ h7))))))

/-- Witness for `c5_declared_order_precedence` at `a, b, c = 1, 2, 3` and
`A, B, C = 4, 5, 6`. -/
theorem c5_declared_order_precedence_witness :
    collect 8 (replace_all ([1, 2, 3, 1, 2, 3] : List Nat)
      [Replacement.new [1, 2] [4, 5], Replacement.new [1, 2, 3] [4, 5, 6]]) =
    some [4, 5, 3, 4, 5, 3] :=
  c5_declared_order_precedence 1 2 3 4 5 6 (by decide) (by decide)

/-- C6: for input `[3, 4, 5, 4, 5, 4, 9]` and the single self-overlapping
pattern `[4, 5, 4, 5] → [100]`, exhausting the iterator yields
`[3, 100, 4, 9]`: the commit at positions 2–5 clears all candidates, so no
second overlapping match starting inside the replaced span is committed. -/
theorem c6_overlapping_self_similar :
    collect 10 (replace ([3, 4, 5, 4, 5, 4, 9] : List Nat) [4, 5, 4, 5] [100]) =
      some [3, 100, 4, 9] := by
  decide

/-- C7 (code-bug evidence): identity replacement is not a round trip on the
reference code: with pattern `[1, 2] → [1, 2]` and input `[1]`, the single
token seeds an open candidate, upstream exhausts, and the pending token is
never flushed — the output is `[]`, not the original `[1]` (same missing
end-of-stream drain as C1). -/
theorem c7_identity_roundtrip_fails :
    collect 10 (replace ([1] : List Nat) [1, 2] [1, 2]) = some [] := by
  decide

/-- C8: in every reachable engine state, every member `s` of every pattern's
candidate set is sound: `1 ≤ s ≤ index`, the consumed tokens at positions
`s .. index` coincide with the corresponding strict prefix of that pattern's
`search_for` (position `s - 1 + k` of the original input for `k ≤ index - s`),
`index - s < len(search_for)`, and the next prune access
`search_for[index + 1 - s]` is in bounds — so no full match is ever left
dangling across a consume step and the prune step cannot go out of bounds. -/
theorem c8_candidate_invariant (orig : List T) (sts : List (ReplaceState T))
    (h0 : ∀ ps ∈ sts, ps.candidates = []) (e : Replace T)
    (hr : Reachable (Replace.adapt orig sts) e)
    (ps : ReplaceState T) (hps : ps ∈ e.replace_states)
    (s : Nat) (hs : s ∈ ps.candidates) (k : Nat) (hk : k ≤ e.index - s) :
    1 ≤ s ∧ s ≤ e.index ∧ e.index - s < ps.search_for.length ∧
    orig[s - 1 + k]? = ps.search_for[k]? ∧
    (ps.search_for[e.index + 1 - s]?).isSome = true := by
  have hinv := reachable_inv orig _ e (adapt_inv orig sts h0) hr
  obtain ⟨_, _, _, hcand⟩ := hinv
  obtain ⟨hsort, hmem⟩ := hcand ps hps
  obtain ⟨⟨h1, h2, hhist⟩, hlt⟩ := hmem s hs
  refine ⟨h1, h2, by omega, hhist k hk, ?_⟩
  rw [List.getElem?_eq_getElem (by omega : e.index + 1 - s < ps.search_for.length)]
  rfl

/-- Witness for `c8_candidate_invariant` at the state reached from
`Replace.adapt [1] [ReplaceState.new [1, 2] [9]]` after consuming the single
token `1`, which seeds the candidate `1`. -/
theorem c8_candidate_invariant_witness :
    1 ≤ 1 ∧ 1 ≤ (1 : Nat) ∧ (1 : Nat) - 1 < ([1, 2] : List Nat).length ∧
    ([1] : List Nat)[1 - 1 + 0]? = ([1, 2] : List Nat)[(0 : Nat)]? ∧
    (([1, 2] : List Nat)[1 + 1 - 1]?).isSome = true :=
  c8_candidate_invariant [1] [ReplaceState.new [1, 2] [9]] (by decide)
    ⟨[], [], [1], [⟨[1, 2], [9], [1]⟩], 1, 0⟩
    (Relation.ReflTransGen.single
      (Step.consume (Replace.adapt [1] [ReplaceState.new [1, 2] [9]]) 1 []
        ⟨[1], [], [1], [⟨[1, 2], [9], [1]⟩], 1, 0⟩ false rfl (by decide)))
    ⟨[1, 2], [9], [1]⟩ (by decide) 1 (by decide) 0 (by decide)

/-- C9: in every reachable engine state, `buffer_in` holds exactly
`index - flushed_index` tokens (and `flushed_index ≤ index`); the invariant
holds at construction and is preserved by every consume step, flush and
match-commit. -/
theorem c9_buffer_length_invariant (orig : List T) (sts : List (ReplaceState T))
    (h0 : ∀ ps ∈ sts, ps.candidates = []) (e : Replace T)
    (hr : Reachable (Replace.adapt orig sts) e) :
    e.buffer_in.length = e.index - e.flushed_index ∧ e.flushed_index ≤ e.index := by
  have hinv := reachable_inv orig _ e (adapt_inv orig sts h0) hr
  exact ⟨hinv.2.2.1, hinv.2.1⟩

/-- Witness for `c9_buffer_length_invariant` at the freshly constructed
engine `Replace.adapt [1, 2] [ReplaceState.new [2] [10]]`. -/
theorem c9_buffer_length_invariant_witness :
    (Replace.adapt ([1, 2] : List Nat) [ReplaceState.new [2] [10]]).buffer_in.length =
      (Replace.adapt ([1, 2] : List Nat) [ReplaceState.new [2] [10]]).index -
        (Replace.adapt ([1, 2] : List Nat) [ReplaceState.new [2] [10]]).flushed_index ∧
    (Replace.adapt ([1, 2] : List Nat) [ReplaceState.new [2] [10]]).flushed_index ≤
      (Replace.adapt ([1, 2] : List Nat) [ReplaceState.new [2] [10]]).index :=
  c9_buffer_length_invariant [1, 2] [ReplaceState.new [2] [10]] (by decide) _
    Relation.ReflTransGen.refl

/-- C10: for an engine built by `replace_all` with an empty replacement list,
`calc_flushable_index` is constantly `0`, so no flush ever happens: the first
pull consumes the entire upstream into `buffer_in` and returns `none`, and
exhausting the iterator produces the empty output. -/
theorem c10_empty_replacements (iter : List T) :
    next (replace_all iter []) = some (none, ⟨[], [], iter, [], iter.length, 0⟩) ∧
    collect 1 (replace_all iter []) = some [] ∧
    ∀ n : Nat, calc_flushable_index n ([] : List (ReplaceState T)) = 0 := by
  have hfill : fill_buffer (replace_all iter ([] : List (Replacement T))) =
      some ⟨[], [], iter, [], iter.length, 0⟩ := by
    have hgo := fill_buffer_go_no_states iter (replace_all iter []) rfl rfl
    rw [fill_buffer]
    have hit : (replace_all iter ([] : List (Replacement T))).iter = iter := rfl
    rw [hit, hgo]
    simp [replace_all, Replace.adapt]
  have hnext : next (replace_all iter ([] : List (Replacement T))) =
      some (none, ⟨[], [], iter, [], iter.length, 0⟩) := by
    have hempty : (replace_all iter ([] : List (Replacement T))).buffer_out.isEmpty = true := rfl
    simp only [next, if_pos hempty, hfill]
  exact ⟨hnext, collect_none 0 _ _ hnext, fun n => rfl⟩

end IterReplace
